import Mathlib

/-!
Verification development for the go-qt_installer repository (installer
main.go and the companion uninstaller).  Paths and other Go strings are
embedded as lists of characters; the installer runs on Linux, so the path
separator is the single character slash.  Each definition models the Go
function named in its doc comment.
-/

namespace QtInstaller

/-- Splits a character list at every slash, the way Go path cleaning views a
path as separator-delimited elements.  An empty input yields one empty
piece, mirroring strings.Split semantics. -/
def splitSlash : List Char → List (List Char)
  | [] => [[]]
  | c :: rest =>
    if c = '/' then [] :: splitSlash rest
    else
      match splitSlash rest with
      | [] => [[c]]
      | p :: ps => (c :: p) :: ps

/-- Joins path elements with a slash between consecutive elements, the way
Go strings.Join with a slash separator does. -/
def joinParts : List (List Char) → List Char
  | [] => []
  | [p] => p
  | p :: ps => p ++ '/' :: joinParts ps

/-- The two-character element denoting the parent directory. -/
def dotdot : List Char := ['.', '.']

/-- One step of the element processing inside Go path/filepath.Clean: empty
and dot elements are dropped, a dotdot element pops the last kept element
unless the stack of kept elements is empty (at the root it is dropped, in a
relative path it is kept) or already ends in dotdot, and any other element
is kept.  The accumulator holds the kept elements in reverse order. -/
def cleanStep (rooted : Bool) (out : List (List Char)) (part : List Char) :
    List (List Char) :=
  if part = [] ∨ part = ['.'] then out
  else if part = dotdot then
    match out with
    | [] => if rooted then [] else [dotdot]
    | p :: rest => if p = dotdot then dotdot :: p :: rest else rest
  else part :: out

/-- The element list produced by Go path/filepath.Clean before rejoining. -/
def cleanParts (rooted : Bool) (l : List (List Char)) : List (List Char) :=
  (l.foldl (cleanStep rooted) []).reverse

/-- Whether a path begins with a slash, i.e. is absolute on Linux. -/
def isRooted (s : List Char) : Bool := s.head? == some '/'

/-- Model of Go path/filepath.Clean on Linux: split the path at slashes,
process dot and dotdot elements, rejoin, restoring the leading slash for a
rooted path and returning a single dot for an empty result. -/
def goClean (p : List Char) : List Char :=
  if p = [] then ['.']
  else
    let body := joinParts (cleanParts (isRooted p) (splitSlash p))
    if isRooted p then '/' :: body
    else if body = [] then ['.'] else body

/-- Model of Go path/filepath.Join on two arguments on Linux: empty
arguments are skipped, the rest are joined with a slash and cleaned, and
joining two empty strings yields the empty string. -/
def goJoin (a b : List Char) : List Char :=
  if a = [] && b = [] then []
  else if a = [] then goClean b
  else if b = [] then goClean a
  else goClean (a ++ '/' :: b)

/-- The nonempty separator-delimited elements of a path. -/
def pathParts (s : List Char) : List (List Char) :=
  (splitSlash s).filter (fun p => p ≠ [])

/-- The containment test from startInstallation in main.go: the destination
path computed by filepath.Join for the entry must begin with the cleaned
install path followed by the path separator, otherwise the entry is
rejected as a traversal attempt. -/
def entryAccepted (installPath entryName : List Char) : Bool :=
  (goClean installPath ++ ['/']).isPrefixOf (goJoin installPath entryName)

/-- Lexical containment, following the specification text: the joined and
canonicalized entry path stays inside the destination root when it has the
same rootedness, extends the cleaned root elementwise, and the residual
elements contain no parent-directory step. -/
def resolvesInside (root p : List Char) : Prop :=
  isRooted p = isRooted root ∧
  pathParts (goClean root) <+: pathParts p ∧
  dotdot ∉ (pathParts p).drop (pathParts (goClean root)).length

instance (root p : List Char) : Decidable (resolvesInside root p) := by
  unfold resolvesInside; infer_instance

theorem splitSlash_ne_nil (l : List Char) : splitSlash l ≠ [] := by
  cases l with
  | nil => simp [splitSlash]
  | cons c rest =>
    by_cases hc : c = '/'
    · simp [splitSlash, hc]
    · simp only [splitSlash, hc, if_false]
      cases splitSlash rest <;> simp

theorem splitSlash_cons_slash (rest : List Char) :
    splitSlash ('/' :: rest) = [] :: splitSlash rest := by
  simp [splitSlash]

theorem splitSlash_cons_ne {c : Char} (hc : c ≠ '/') {rest p : List Char}
    {ps : List (List Char)} (h : splitSlash rest = p :: ps) :
    splitSlash (c :: rest) = (c :: p) :: ps := by
  simp [splitSlash, hc, h]

theorem splitSlash_append (a b : List Char) :
    splitSlash (a ++ '/' :: b) = splitSlash a ++ splitSlash b := by
  induction a with
  | nil => simp [splitSlash]
  | cons c rest ih =>
    by_cases hc : c = '/'
    · subst hc
      simp [splitSlash, ih]
    · rcases h : splitSlash rest with _ | ⟨p, ps⟩
      · exact absurd h (splitSlash_ne_nil rest)
      · have e1 : splitSlash (rest ++ '/' :: b) = p :: (ps ++ splitSlash b) := by
          rw [ih, h]; rfl
        simp [splitSlash, hc, e1, h]

theorem not_slash_mem_splitSlash (l : List Char) :
    ∀ x ∈ splitSlash l, '/' ∉ x := by
  induction l with
  | nil => simp [splitSlash]
  | cons c rest ih =>
    intro x hx
    by_cases hc : c = '/'
    · subst hc
      rw [splitSlash_cons_slash] at hx
      rcases List.mem_cons.mp hx with h1 | h1
      · subst h1; simp
      · exact ih x h1
    · rcases h : splitSlash rest with _ | ⟨p, ps⟩
      · exact absurd h (splitSlash_ne_nil rest)
      · rw [splitSlash_cons_ne hc h] at hx
        rcases List.mem_cons.mp hx with h1 | h1
        · subst h1
          intro hmem
          rcases List.mem_cons.mp hmem with h2 | h2
          · exact hc h2.symm
          · exact ih p (h ▸ List.mem_cons_self _ _) h2
        · exact ih x (h ▸ List.mem_cons_of_mem _ h1)

theorem splitSlash_of_not_mem {l : List Char} (h : '/' ∉ l) :
    splitSlash l = [l] := by
  induction l with
  | nil => simp [splitSlash]
  | cons c rest ih =>
    have hc : c ≠ '/' := fun hc => h (hc ▸ List.mem_cons_self _ _)
    have hrest : '/' ∉ rest := fun hm => h (List.mem_cons_of_mem _ hm)
    simp [splitSlash, hc, ih hrest]

theorem splitSlash_joinParts (ps : List (List Char)) (h : ps ≠ [])
    (h2 : ∀ p ∈ ps, '/' ∉ p) : splitSlash (joinParts ps) = ps := by
  induction ps with
  | nil => exact absurd rfl h
  | cons p rest ih =>
    cases rest with
    | nil =>
      simp [joinParts, splitSlash_of_not_mem (h2 p (List.mem_cons_self _ _))]
    | cons q t =>
      have hrest : ∀ x ∈ q :: t, '/' ∉ x :=
        fun x hx => h2 x (List.mem_cons_of_mem _ hx)
      simp [joinParts, splitSlash_append,
        splitSlash_of_not_mem (h2 p (List.mem_cons_self _ _)),
        ih (by simp) hrest]

/-- A well-formed kept element of a cleaned path: nonempty, slash-free, and
in a rooted path never a parent-directory step. -/
def goodPart (rooted : Bool) (x : List Char) : Prop :=
  x ≠ [] ∧ '/' ∉ x ∧ (rooted = true → x ≠ dotdot)

theorem cleanStep_good {rooted : Bool} {out : List (List Char)}
    (hout : ∀ x ∈ out, goodPart rooted x) {part : List Char}
    (hp : '/' ∉ part) :
    ∀ x ∈ cleanStep rooted out part, goodPart rooted x := by
  intro x hx
  by_cases h1 : part = [] ∨ part = ['.']
  · rw [cleanStep.eq_def, if_pos h1] at hx
    exact hout x hx
  · by_cases h2 : part = dotdot
    · subst h2
      cases out with
      | nil =>
        cases hr : rooted with
        | true =>
          rw [hr] at hx
          simp [cleanStep, dotdot] at hx
        | false =>
          rw [hr] at hx
          simp [cleanStep, dotdot] at hx
          subst hx
          exact ⟨by simp [dotdot], by simp [dotdot], by simp⟩
      | cons p rest =>
        rw [cleanStep.eq_def, if_neg h1, if_pos rfl] at hx
        have hx : x ∈ if p = dotdot then dotdot :: p :: rest else rest := hx
        by_cases hpd : p = dotdot
        · rw [if_pos hpd] at hx
          rcases List.mem_cons.mp hx with h3 | h3
          · subst h3
            refine ⟨by simp [dotdot], by simp [dotdot], ?_⟩
            intro hct _
            exact absurd hpd ((hout p (List.mem_cons_self _ _)).2.2 hct)
          · exact hout x h3
        · rw [if_neg hpd] at hx
          exact hout x (List.mem_cons_of_mem _ hx)
    · rw [cleanStep.eq_def, if_neg h1, if_neg h2] at hx
      rcases List.mem_cons.mp hx with h3 | h3
      · subst h3
        exact ⟨fun he => h1 (Or.inl he), hp, fun _ => h2⟩
      · exact hout x h3

theorem foldl_cleanStep_good (rooted : Bool) (l : List (List Char)) :
    ∀ out, (∀ x ∈ out, goodPart rooted x) → (∀ x ∈ l, '/' ∉ x) →
      ∀ x ∈ l.foldl (cleanStep rooted) out, goodPart rooted x := by
  induction l with
  | nil =>
    intro out hout _ x hx
    exact hout x hx
  | cons part rest ih =>
    intro out hout hl x hx
    exact ih (cleanStep rooted out part)
      (cleanStep_good hout (hl part (List.mem_cons_self _ _)))
      (fun y hy => hl y (List.mem_cons_of_mem _ hy)) x hx

theorem cleanParts_good (rooted : Bool) (s : List Char) :
    ∀ x ∈ cleanParts rooted (splitSlash s), goodPart rooted x := by
  intro x hx
  rw [cleanParts, List.mem_reverse] at hx
  exact foldl_cleanStep_good rooted (splitSlash s) [] (by simp)
    (not_slash_mem_splitSlash s) x hx

theorem goClean_rooted (s : List Char) (h : isRooted s = true) :
    goClean s = '/' :: joinParts (cleanParts true (splitSlash s)) := by
  have hne : s ≠ [] := by
    intro he
    subst he
    simp [isRooted] at h
  rw [goClean, if_neg hne]
  simp [h]

theorem pathParts_cons_slash (l : List Char) :
    pathParts ('/' :: l) = pathParts l := by
  simp [pathParts, splitSlash_cons_slash]

theorem pathParts_append (a b : List Char) :
    pathParts (a ++ '/' :: b) = pathParts a ++ pathParts b := by
  simp [pathParts, splitSlash_append]

theorem pathParts_joinParts (ps : List (List Char))
    (hgood : ∀ x ∈ ps, x ≠ [] ∧ '/' ∉ x) : pathParts (joinParts ps) = ps := by
  cases ps with
  | nil => simp [joinParts, pathParts, splitSlash]
  | cons p t =>
    rw [pathParts, splitSlash_joinParts (p :: t) (by simp)
      (fun x hx => (hgood x hx).2)]
    apply List.filter_eq_self.mpr
    intro a ha
    simpa using (hgood a ha).1

theorem dotdot_not_mem_pathParts_goClean {s : List Char}
    (h : isRooted s = true) : dotdot ∉ pathParts (goClean s) := by
  rw [goClean_rooted s h, pathParts_cons_slash]
  have hgood := cleanParts_good true s
  rw [pathParts_joinParts _ (fun x hx => ⟨(hgood x hx).1, (hgood x hx).2.1⟩)]
  intro hmem
  exact ((hgood dotdot hmem).2.2 rfl) rfl

theorem isRooted_goClean {s : List Char} (h : isRooted s = true) :
    ∃ t, goClean s = '/' :: t :=
  ⟨_, goClean_rooted s h⟩

theorem accepted_resolvesInside {root name : List Char}
    (hroot : isRooted root = true) (hacc : entryAccepted root name = true) :
    resolvesInside root (goJoin root name) := by
  have hrne : root ≠ [] := by
    intro he
    subst he
    simp [isRooted] at hroot
  by_cases hname : name = []
  · subst hname
    exfalso
    have hj : goJoin root [] = goClean root := by
      rw [goJoin]
      simp [hrne]
    rw [entryAccepted, hj] at hacc
    have hpre := List.isPrefixOf_iff_prefix.mp hacc
    have hlen := hpre.length_le
    simp at hlen
  · have hj : goJoin root name = goClean (root ++ '/' :: name) := by
      rw [goJoin]
      simp [hrne, hname]
    rw [entryAccepted, hj] at hacc
    obtain ⟨t, ht⟩ := List.isPrefixOf_iff_prefix.mp hacc
    have ht2 : goClean (root ++ '/' :: name) = goClean root ++ '/' :: t := by
      rw [← ht]
      simp
    have hsroot : isRooted (root ++ '/' :: name) = true := by
      cases root with
      | nil => exact absurd rfl hrne
      | cons c r =>
        simp only [isRooted, List.cons_append, List.head?] at hroot ⊢
        exact hroot
    have hnd := dotdot_not_mem_pathParts_goClean hsroot
    obtain ⟨u, hu⟩ := isRooted_goClean hroot
    refine ⟨?_, ?_, ?_⟩
    · rw [hj, ht2, hu, hroot]
      simp [isRooted]
    · rw [hj, ht2, pathParts_append]
      exact List.prefix_append _ _
    · rw [hj, ht2, pathParts_append, List.drop_left]
      intro hmem
      exact hnd (by rw [ht2, pathParts_append]; exact List.mem_append_right _ hmem)

theorem goClean_check1 : goClean "/a/b/../c".toList = "/a/c".toList := by decide

theorem goClean_check2 : goClean "/../x".toList = "/x".toList := by decide

theorem goClean_check3 : goClean "a/..".toList = ".".toList := by decide

theorem goClean_check4 : goClean "./a//b/".toList = "a/b".toList := by decide

theorem goJoin_check1 :
    goJoin "/opt/game".toList "../../etc/passwd".toList
      = "/etc/passwd".toList := by decide

/-- Outcome bits for one archive entry during extraction, as the code
observes them: the stored name, whether the entry is a directory, and the
success of each filesystem call made for it.  For a directory entry mkdirOk
is the result of MkdirAll on the entry path itself; for a file entry it is
the result of MkdirAll on the parent directory. -/
structure ZipEntry where
  name : List Char
  isDir : Bool
  mkdirOk : Bool
  createOk : Bool
  openOk : Bool
  copyOk : Bool
deriving DecidableEq

/-- The kinds of warnings the installation worker sends on its error
channel. -/
inductive WarnKind where
  | traversal
  | mkdirFail
  | createFail
  | openFail
  | copyFail
  | chmodMainFail
  | copyUninstallerFail
deriving DecidableEq

/-- One notification sent by the installation worker: a progress count on
updateChan, a warning on errorChan, or the completion signal on doneChan. -/
inductive Event where
  | progress (n : Nat)
  | warning (k : WarnKind)
  | done
deriving DecidableEq

/-- A filesystem call attempted by the extraction loop, with the
destination path the code computes for it. -/
inductive FsAction where
  | mkdirTree (path : List Char)
  | mkdirParentOf (path : List Char)
  | createFile (path : List Char)
deriving DecidableEq

/-- The destination path computed for an entry in startInstallation. -/
def entryDest (root : List Char) (e : ZipEntry) : List Char :=
  goJoin root e.name

/-- Whether the extraction loop counts this entry in extractedFiles:
rejected entries are skipped; a directory entry is always counted because
the code does not check the MkdirAll error; a file entry is counted when
every step succeeds. -/
def entrySuccess (root : List Char) (e : ZipEntry) : Bool :=
  entryAccepted root e.name &&
    (e.isDir || (e.mkdirOk && e.createOk && e.openOk && e.copyOk))

/-- The warning, if any, the extraction loop sends for this entry. -/
def entryWarnKind (root : List Char) (e : ZipEntry) : Option WarnKind :=
  if !(entryAccepted root e.name) then some WarnKind.traversal
  else if e.isDir then none
  else if !e.mkdirOk then some WarnKind.mkdirFail
  else if !e.createOk then some WarnKind.createFail
  else if !e.openOk then some WarnKind.openFail
  else if !e.copyOk then some WarnKind.copyFail
  else none

/-- The filesystem calls the extraction loop attempts for this entry. -/
def entryActions (root : List Char) (e : ZipEntry) : List FsAction :=
  if !(entryAccepted root e.name) then []
  else if e.isDir then [FsAction.mkdirTree (entryDest root e)]
  else if !e.mkdirOk then [FsAction.mkdirParentOf (entryDest root e)]
  else [FsAction.mkdirParentOf (entryDest root e),
        FsAction.createFile (entryDest root e)]

/-- C1: an archive entry whose stored path, joined to the absolute
destination root and canonicalized, resolves outside the root fails the
containment check: it is rejected with a path-traversal warning, no
filesystem call is attempted for it, and it is not counted. -/
theorem extraction_rejects_traversal (root : List Char) (e : ZipEntry)
    (h1 : isRooted root = true)
    (h2 : ¬ resolvesInside root (goJoin root e.name)) :
    entryAccepted root e.name = false ∧
    entryWarnKind root e = some WarnKind.traversal ∧
    entryActions root e = [] ∧
    entrySuccess root e = false := by
  have hacc : entryAccepted root e.name = false := by
    cases hca : entryAccepted root e.name with
    | false => rfl
    | true => exact absurd (accepted_resolvesInside h1 hca) h2
  refine ⟨hacc, ?_, ?_, ?_⟩ <;>
    simp [entryWarnKind, entryActions, entrySuccess, hacc]

/-- A crafted traversal entry used as the concrete witness input. -/
def traversalEntryW : ZipEntry :=
  ⟨"../../etc/passwd".toList, false, true, true, true, true⟩

/-- Witness for C1 at the destination root /opt/game and the crafted entry
name ../../etc/passwd. -/
theorem extraction_rejects_traversal_witness :
    isRooted "/opt/game".toList = true ∧
    ¬ resolvesInside "/opt/game".toList
        (goJoin "/opt/game".toList traversalEntryW.name) ∧
    (entryAccepted "/opt/game".toList traversalEntryW.name = false ∧
     entryWarnKind "/opt/game".toList traversalEntryW
        = some WarnKind.traversal ∧
     entryActions "/opt/game".toList traversalEntryW = [] ∧
     entrySuccess "/opt/game".toList traversalEntryW = false) :=
  ⟨by decide, by decide,
   extraction_rejects_traversal "/opt/game".toList traversalEntryW
     (by decide) (by decide)⟩

/-- The progress numbers inside an event list, in order. -/
def progressValues (evs : List Event) : List Nat :=
  evs.filterMap (fun ev =>
    match ev with
    | Event.progress n => some n
    | _ => none)

/-- Whether an event is the completion signal. -/
def Event.isDone : Event → Bool
  | Event.done => true
  | _ => false

/-- The number of entries the extraction loop counts in extractedFiles. -/
def countSucc (root : List Char) (es : List ZipEntry) : Nat :=
  es.countP (fun e => entrySuccess root e)

/-- The notifications the extraction loop sends while processing the given
entries, with the running count starting at n: each failed or rejected
entry contributes its warning, each counted entry the incremented count. -/
def extractEvents (root : List Char) : List ZipEntry → Nat → List Event
  | [], _ => []
  | e :: rest, n =>
    if entrySuccess root e then
      Event.progress (n + 1) :: extractEvents root rest (n + 1)
    else
      (entryWarnKind root e).toList.map Event.warning
        ++ extractEvents root rest n

/-- Success bits for the finalization phase of the worker goroutine.
Shortcut creation and the manifest save report their failures through a
dialog box and the log respectively, never through the error channel, so
they do not appear here. -/
structure FinalizeEnv where
  execPathSet : Bool
  chmodMainOk : Bool
  copyUninstallerOk : Bool
deriving DecidableEq

/-- The warnings the worker sends on errorChan during finalization. -/
def finalizeEvents (f : FinalizeEnv) : List Event :=
  (if f.execPathSet && !f.chmodMainOk
    then [Event.warning WarnKind.chmodMainFail] else [])
    ++ (if !f.copyUninstallerOk
      then [Event.warning WarnKind.copyUninstallerFail] else [])

/-- The total entry count over all archives, the progress denominator
computed in startInstallation before extraction begins. -/
def totalEntries (assets : List (List ZipEntry)) : Nat :=
  (assets.map List.length).sum

/-- The full sequence of notifications the installation worker sends: the
extraction events over all archive entries in order, the finalization
warnings, then the single completion signal on doneChan. -/
def workerEvents (root : List Char) (assets : List (List ZipEntry))
    (f : FinalizeEnv) : List Event :=
  extractEvents root assets.flatten 0 ++ finalizeEvents f ++ [Event.done]

/-- The progress listener goroutine as a fold: progress events update the
displayed value, warnings leave it unchanged, and the completion signal
sets the display to the total and stops the listener. -/
def listenerFinal (total : Nat) : List Event → Nat → Nat
  | [], d => d
  | Event.progress p :: rest, _ => listenerFinal total rest p
  | Event.warning _ :: rest, d => listenerFinal total rest d
  | Event.done :: _, _ => total

theorem progressValues_append (a b : List Event) :
    progressValues (a ++ b) = progressValues a ++ progressValues b := by
  simp [progressValues]

theorem progressValues_extractEvents (root : List Char) (es : List ZipEntry) :
    ∀ n, progressValues (extractEvents root es n)
      = List.range' (n + 1) (countSucc root es) := by
  induction es with
  | nil =>
    intro n
    simp [extractEvents, countSucc, progressValues]
  | cons e rest ih =>
    intro n
    by_cases h : entrySuccess root e = true
    · rw [extractEvents, if_pos h]
      rw [countSucc, List.countP_cons_of_pos _ _ (by simpa using h)]
      rw [List.range'_succ]
      simp only [progressValues, List.filterMap_cons]
      rw [← progressValues, ih (n + 1), countSucc]
    · have hb : entrySuccess root e = false := by
        cases hc : entrySuccess root e
        · rfl
        · exact absurd hc h
      rw [extractEvents, if_neg (by simp [hb])]
      rw [countSucc, List.countP_cons_of_neg _ _ (by simp [hb])]
      rw [progressValues_append, ← countSucc, ← ih n]
      cases entryWarnKind root e <;> simp [progressValues]

theorem extractEvents_no_done (root : List Char) (es : List ZipEntry) :
    ∀ n ev, ev ∈ extractEvents root es n → Event.isDone ev = false := by
  induction es with
  | nil =>
    intro n ev hev
    simp [extractEvents] at hev
  | cons e rest ih =>
    intro n ev hev
    by_cases h : entrySuccess root e = true
    · rw [extractEvents, if_pos h] at hev
      rcases List.mem_cons.mp hev with h1 | h1
      · subst h1; rfl
      · exact ih (n + 1) ev h1
    · rw [extractEvents, if_neg h] at hev
      rcases List.mem_append.mp hev with h1 | h1
      · rcases List.mem_map.mp h1 with ⟨k, _, hk⟩
        subst hk
        rfl
      · exact ih n ev h1

theorem finalizeEvents_no_done (f : FinalizeEnv) :
    ∀ ev ∈ finalizeEvents f, Event.isDone ev = false := by
  intro ev hev
  unfold finalizeEvents at hev
  rcases List.mem_append.mp hev with h1 | h1 <;>
    · split at h1
      · simp at h1
        subst h1
        rfl
      · simp at h1

theorem progressValues_finalize (f : FinalizeEnv) :
    progressValues (finalizeEvents f) = [] := by
  unfold finalizeEvents
  split_ifs <;> rfl

theorem progressValues_worker (root : List Char)
    (assets : List (List ZipEntry)) (f : FinalizeEnv) :
    progressValues (workerEvents root assets f)
      = List.range' 1 (countSucc root assets.flatten) := by
  unfold workerEvents
  rw [progressValues_append, progressValues_append, progressValues_finalize,
    progressValues_extractEvents root assets.flatten 0]
  simp [progressValues]

theorem listenerFinal_append_done (total : Nat) (pre tail : List Event) :
    ∀ d, (∀ ev ∈ pre, Event.isDone ev = false) →
      listenerFinal total (pre ++ Event.done :: tail) d = total := by
  induction pre with
  | nil =>
    intro d _
    rfl
  | cons ev rest ih =>
    intro d h
    cases ev with
    | progress p => exact ih p (fun x hx => h x (List.mem_cons_of_mem _ hx))
    | warning k => exact ih d (fun x hx => h x (List.mem_cons_of_mem _ hx))
    | done =>
      have hd := h Event.done (List.mem_cons_self _ _)
      simp [Event.isDone] at hd

theorem countSucc_le_totalEntries (root : List Char)
    (assets : List (List ZipEntry)) :
    countSucc root assets.flatten ≤ totalEntries assets := by
  rw [countSucc, totalEntries, ← List.length_flatten]
  exact List.countP_le_length _

/-- C9: in one installation run the progress values sent on the update
channel are strictly increasing and bounded by the total entry count, the
completion signal occurs exactly once and as the final event, hence after
every progress value, and on completion the listener displays the total
entry count. -/
theorem worker_progress_protocol (root : List Char)
    (assets : List (List ZipEntry)) (f : FinalizeEnv) :
    List.Pairwise (fun a b => a < b)
        (progressValues (workerEvents root assets f)) ∧
    (∀ v ∈ progressValues (workerEvents root assets f),
        v ≤ totalEntries assets) ∧
    (workerEvents root assets f).countP Event.isDone = 1 ∧
    (workerEvents root assets f).getLast? = some Event.done ∧
    listenerFinal (totalEntries assets) (workerEvents root assets f) 0
      = totalEntries assets := by
  refine ⟨?_, ?_, ?_, ?_, ?_⟩
  · rw [progressValues_worker]
    exact List.pairwise_lt_range' 1 (countSucc root assets.flatten) 1
  · intro v hv
    rw [progressValues_worker] at hv
    rw [List.mem_range'_1] at hv
    have := countSucc_le_totalEntries root assets
    omega
  · unfold workerEvents
    rw [List.countP_append, List.countP_append]
    have h1 : (extractEvents root assets.flatten 0).countP Event.isDone = 0 :=
      List.countP_eq_zero.mpr
        (fun ev hev => by simp [extractEvents_no_done root assets.flatten 0 ev hev])
    have h2 : (finalizeEvents f).countP Event.isDone = 0 :=
      List.countP_eq_zero.mpr
        (fun ev hev => by simp [finalizeEvents_no_done f ev hev])
    rw [h1, h2]
    rfl
  · unfold workerEvents
    exact List.getLast?_concat _
  · unfold workerEvents
    have hpre : ∀ ev ∈ extractEvents root assets.flatten 0
        ++ finalizeEvents f, Event.isDone ev = false := by
      intro ev hev
      rcases List.mem_append.mp hev with h1 | h1
      · exact extractEvents_no_done root assets.flatten 0 ev h1
      · exact finalizeEvents_no_done f ev h1
    have := listenerFinal_append_done (totalEntries assets)
      (extractEvents root assets.flatten 0 ++ finalizeEvents f) [] 0 hpre
    simpa using this

/-- Spec-side notion from C10 of an entry fully processed without error:
the directory was created, or the file was created and copied. -/
def claimEntrySuccess (root : List Char) (e : ZipEntry) : Bool :=
  entryAccepted root e.name &&
    (if e.isDir then e.mkdirOk
     else e.mkdirOk && e.createOk && e.openOk && e.copyOk)

/-- A directory entry whose MkdirAll call fails, used to refute C10 as
stated: the code ignores the MkdirAll error for directory entries. -/
def failedDirEntryW : ZipEntry :=
  ⟨"sub".toList, true, false, true, true, true⟩

/-- C10 counterexample: a directory entry whose creation fails is not fully
processed in the claim's sense, yet the code counts it, and with it as the
only entry the last progress value equals the total entry count instead of
staying strictly below it. -/
theorem count_increment_counterexample :
    claimEntrySuccess "/opt/game".toList failedDirEntryW = false ∧
    entrySuccess "/opt/game".toList failedDirEntryW = true ∧
    progressValues
        (extractEvents "/opt/game".toList [failedDirEntryW] 0) = [1] ∧
    [failedDirEntryW].length = 1 := by
  refine ⟨by decide, by decide, ?_, rfl⟩
  decide

/-- C10 amended: the count is incremented exactly for the entries the code
counts, namely accepted directory entries regardless of the MkdirAll
outcome and fully processed file entries; whenever some entry is rejected
or is a file entry that fails, every progress value the worker sends stays
strictly below the total entry count. -/
theorem count_increment_amended (root : List Char) (es : List ZipEntry)
    (h : ∃ e ∈ es, entrySuccess root e = false) :
    progressValues (extractEvents root es 0)
      = List.range' 1 (countSucc root es) ∧
    ∀ v ∈ progressValues (extractEvents root es 0), v < es.length := by
  refine ⟨progressValues_extractEvents root es 0, ?_⟩
  intro v hv
  rw [progressValues_extractEvents root es 0] at hv
  rw [List.mem_range'_1] at hv
  have hne : countSucc root es ≠ es.length := by
    intro heq
    rw [countSucc] at heq
    have hall := List.countP_eq_length.mp heq
    rcases h with ⟨e, he, hf⟩
    have := hall e he
    simp [hf] at this
  have hle : countSucc root es ≤ es.length := List.countP_le_length _
  omega

/-- Witness for C10 amended: a single rejected entry yields no progress
value at all, so the bound holds vacuously yet the hypothesis is
concrete. -/
theorem count_increment_amended_witness :
    (∃ e ∈ [traversalEntryW],
        entrySuccess "/opt/game".toList e = false) ∧
    (progressValues (extractEvents "/opt/game".toList [traversalEntryW] 0)
        = List.range' 1 (countSucc "/opt/game".toList [traversalEntryW]) ∧
     ∀ v ∈ progressValues
        (extractEvents "/opt/game".toList [traversalEntryW] 0),
        v < [traversalEntryW].length) :=
  ⟨by decide, count_increment_amended "/opt/game".toList [traversalEntryW]
    (by decide)⟩

/-- The environment of one startInstallation run: per archive either its
entry list or none when zip.OpenReader fails, the result of the free-space
measurement in gigabytes (none when syscall.Statfs itself errors), the
configured minimum, the MkdirAll result for the install root, the
destination root and the finalization outcomes. -/
structure InstallRun where
  assets : List (Option (List ZipEntry))
  spaceCheckGB : Option ℚ
  minRequiredGB : ℚ
  mkdirRootOk : Bool
  root : List Char
  finEnv : FinalizeEnv
deriving DecidableEq

/-- How one startInstallation run ends: one of the fatal early returns, or
the worker goroutine running to completion. -/
inductive RunOutcome where
  | failedOpen
  | failedEmpty
  | failedSpaceCheck
  | failedNoSpace
  | failedMkdir
  | finished
deriving DecidableEq

/-- The total entry count summed over the opened archives. -/
def runTotalFiles (r : InstallRun) : Nat :=
  ((r.assets.filterMap id).map List.length).sum

/-- The control flow of startInstallation in main.go, in source order: open
every archive (any failure is fatal), fail when the total entry count is
zero, measure free space (a measurement error is fatal), fail when free
space is below the configured minimum, create the install root (failure is
fatal), then run extraction and finalization to completion. -/
def runResult (r : InstallRun) : RunOutcome :=
  if r.assets.any Option.isNone then RunOutcome.failedOpen
  else if runTotalFiles r = 0 then RunOutcome.failedEmpty
  else
    match r.spaceCheckGB with
    | none => RunOutcome.failedSpaceCheck
    | some free =>
      if free < r.minRequiredGB then RunOutcome.failedNoSpace
      else if !r.mkdirRootOk then RunOutcome.failedMkdir
      else RunOutcome.finished

/-- Whether the run reaches the MkdirAll call that creates the install
root: only after all archives opened, the entry count is positive, and the
free-space check passed. -/
def rootCreationAttempted (r : InstallRun) : Bool :=
  !r.assets.any Option.isNone && !(runTotalFiles r == 0) &&
    (match r.spaceCheckGB with
     | none => false
     | some free => !(free < r.minRequiredGB : Bool))

/-- C6: whenever the configured minimum exceeds the measured free space the
run fails during preflight, before the install-root creation step, and the
MkdirAll call for the install root is never reached. -/
theorem preflight_space_failure (r : InstallRun) (free : ℚ)
    (h1 : r.spaceCheckGB = some free) (h2 : free < r.minRequiredGB) :
    runResult r ≠ RunOutcome.finished ∧
    runResult r ≠ RunOutcome.failedMkdir ∧
    rootCreationAttempted r = false := by
  unfold runResult rootCreationAttempted
  rw [h1]
  by_cases ho : r.assets.any Option.isNone
  · simp [ho]
  · by_cases ht : runTotalFiles r = 0
    · simp [ho, ht]
    · simp [ho, ht, h2]

/-- A concrete run whose free space is below the configured minimum. -/
def lowSpaceRunW : InstallRun :=
  { assets := [some [traversalEntryW]]
    spaceCheckGB := some 1
    minRequiredGB := 5
    mkdirRootOk := true
    root := "/opt/game".toList
    finEnv := ⟨true, true, true⟩ }

/-- Witness for C6 at a concrete run with one gigabyte free and five
required. -/
theorem preflight_space_failure_witness :
    lowSpaceRunW.spaceCheckGB = some 1 ∧ (1 : ℚ) < lowSpaceRunW.minRequiredGB ∧
    (runResult lowSpaceRunW ≠ RunOutcome.finished ∧
     runResult lowSpaceRunW ≠ RunOutcome.failedMkdir ∧
     rootCreationAttempted lowSpaceRunW = false) :=
  ⟨rfl, by decide, preflight_space_failure lowSpaceRunW 1 rfl (by decide)⟩

/-- Spec-side formalization of the four fatal conditions C7 lists: an
archive failed to open, the total entry count is zero, the measured free
space is below the configured minimum, or the install-root creation
fails. -/
def claimFourFatal (r : InstallRun) : Bool :=
  r.assets.any Option.isNone || (runTotalFiles r == 0) ||
    (match r.spaceCheckGB with
     | none => false
     | some free => (free < r.minRequiredGB : Bool)) ||
    !r.mkdirRootOk

/-- The five fatal conditions the code actually has: the four from the
claim plus failure of the free-space measurement itself. -/
def codeFiveFatal (r : InstallRun) : Bool :=
  r.assets.any Option.isNone || (runTotalFiles r == 0) ||
    r.spaceCheckGB.isNone ||
    (match r.spaceCheckGB with
     | none => false
     | some free => (free < r.minRequiredGB : Bool)) ||
    !r.mkdirRootOk

/-- A concrete run where the free-space measurement itself errors while
none of the four conditions listed by C7 holds. -/
def statfsErrorRunW : InstallRun :=
  { assets := [some [traversalEntryW]]
    spaceCheckGB := none
    minRequiredGB := 1
    mkdirRootOk := true
    root := "/opt/game".toList
    finEnv := ⟨true, true, true⟩ }

/-- C7 counterexample: a run in which none of the four listed conditions
holds still fails, because the free-space measurement error is a fifth
fatal condition in the code. -/
theorem fatal_conditions_counterexample :
    claimFourFatal statfsErrorRunW = false ∧
    runResult statfsErrorRunW ≠ RunOutcome.finished := by
  refine ⟨by decide, by decide⟩

/-- C7 amended: exactly five conditions make a run reach a failed outcome,
the four listed plus a free-space measurement error; in every other
environment, whatever the per-entry and finalization outcomes, the run
finishes. -/
theorem fatal_conditions_amended (r : InstallRun) :
    runResult r = RunOutcome.finished ↔ codeFiveFatal r = false := by
  unfold runResult codeFiveFatal
  by_cases ho : r.assets.any Option.isNone
  · simp [ho]
  · by_cases ht : runTotalFiles r = 0
    · simp [ho, ht]
    · cases hs : r.spaceCheckGB with
      | none => simp [ho, ht, hs]
      | some free =>
        by_cases hf : free < r.minRequiredGB
        · simp [ho, ht, hs, hf]
        · by_cases hm : r.mkdirRootOk
          · simp [ho, ht, hs, hf, hm]
          · simp [ho, ht, hs, hf, hm]

/-- The environment of one uninstallGame run: the record fields the
function consults and the outcome of each filesystem call it makes. -/
structure UninstallEnv where
  menuFile : String
  menuExists : Bool
  menuRemoveOk : Bool
  desktopFile : String
  desktopExists : Bool
  desktopRemoveOk : Bool
  installPath : String
  rootExists : Bool
  removeRootOk : Bool
  manifestExists : Bool
  manifestRemoveOk : Bool
deriving DecidableEq

/-- The externally visible steps of uninstallGame, listed in the order the
function performs them. -/
inductive UStep where
  | removeMenuShortcut
  | removeDesktopShortcut
  | removeInstallRoot
  | refreshCaches
  | deleteManifest
deriving DecidableEq

/-- Failures uninstallGame merely logs. -/
inductive UWarn where
  | menuRemoveFailed
  | desktopRemoveFailed
  | manifestRemoveFailed
deriving DecidableEq

/-- The trace of uninstallGame from uninstaller.go: the steps attempted in
order, the logged warnings, and the returned error, if any.  The two
shortcut removals log failures and continue; a RemoveAll failure on the
install root returns an error at once, so the cache refresh and the
manifest deletion are skipped; the cache refresh ignores its own
failures; the manifest deletion is attempted only when the recomputed path
exists, and logs its failure. -/
def uninstallGame (e : UninstallEnv) :
    List UStep × List UWarn × Option String :=
  let s1 := if e.menuFile ≠ "" ∧ e.menuExists = true
            then [UStep.removeMenuShortcut] else []
  let w1 := if e.menuFile ≠ "" ∧ e.menuExists = true ∧ e.menuRemoveOk = false
            then [UWarn.menuRemoveFailed] else []
  let s2 := if e.desktopFile ≠ "" ∧ e.desktopExists = true
            then [UStep.removeDesktopShortcut] else []
  let w2 := if e.desktopFile ≠ "" ∧ e.desktopExists = true
                ∧ e.desktopRemoveOk = false
            then [UWarn.desktopRemoveFailed] else []
  if e.installPath ≠ "" ∧ e.rootExists = true ∧ e.removeRootOk = false then
    (s1 ++ s2 ++ [UStep.removeInstallRoot], w1 ++ w2, some "RemoveAll failed")
  else
    let s3 := if e.installPath ≠ "" ∧ e.rootExists = true
              then [UStep.removeInstallRoot] else []
    let s5 := if e.manifestExists = true then [UStep.deleteManifest] else []
    let w5 := if e.manifestExists = true ∧ e.manifestRemoveOk = false
              then [UWarn.manifestRemoveFailed] else []
    (s1 ++ s2 ++ s3 ++ [UStep.refreshCaches] ++ s5, w1 ++ w2 ++ w5, none)

/-- The canonical full order of the uninstall steps. -/
def uninstallOrder : List UStep :=
  [UStep.removeMenuShortcut, UStep.removeDesktopShortcut,
   UStep.removeInstallRoot, UStep.refreshCaches, UStep.deleteManifest]

theorem if_singleton_sublist (c : Prop) [Decidable c] {α : Type} (x : α) :
    (if c then [x] else []).Sublist [x] := by
  split
  · exact List.Sublist.refl _
  · exact List.nil_sublist _

/-- C8: in every run the attempted steps follow the fixed order;
shortcut-removal failures change neither the attempted steps nor the
result; whenever the install-root removal does not fail, the run returns
no error and the cache refresh is reached; and when the install root
exists but RemoveAll fails, the run returns a hard error and neither
refreshes caches nor deletes the manifest. -/
theorem uninstall_order_and_fatality (e : UninstallEnv) :
    (uninstallGame e).1.Sublist uninstallOrder ∧
    (∀ b1 b2 : Bool,
      (uninstallGame { e with menuRemoveOk := b1, desktopRemoveOk := b2 }).1
        = (uninstallGame e).1 ∧
      (uninstallGame { e with menuRemoveOk := b1, desktopRemoveOk := b2 }).2.2
        = (uninstallGame e).2.2) ∧
    (¬(e.installPath ≠ "" ∧ e.rootExists = true ∧ e.removeRootOk = false) →
      (uninstallGame e).2.2 = none ∧
      UStep.refreshCaches ∈ (uninstallGame e).1) ∧
    (e.installPath ≠ "" → e.rootExists = true → e.removeRootOk = false →
      (uninstallGame e).2.2 ≠ none ∧
      UStep.refreshCaches ∉ (uninstallGame e).1 ∧
      UStep.deleteManifest ∉ (uninstallGame e).1) := by
  refine ⟨?_, ?_, ?_, ?_⟩
  · by_cases hroot : e.installPath ≠ "" ∧ e.rootExists = true
        ∧ e.removeRootOk = false
    · have hsteps : (uninstallGame e).1
          = (if e.menuFile ≠ "" ∧ e.menuExists = true
              then [UStep.removeMenuShortcut] else [])
            ++ (if e.desktopFile ≠ "" ∧ e.desktopExists = true
              then [UStep.removeDesktopShortcut] else [])
            ++ [UStep.removeInstallRoot] := by
        simp [uninstallGame, hroot]
      rw [hsteps]
      exact ((if_singleton_sublist _ _).append
        (if_singleton_sublist _ _)).append (by decide)
    · have hsteps : (uninstallGame e).1
          = (if e.menuFile ≠ "" ∧ e.menuExists = true
              then [UStep.removeMenuShortcut] else [])
            ++ (if e.desktopFile ≠ "" ∧ e.desktopExists = true
              then [UStep.removeDesktopShortcut] else [])
            ++ (if e.installPath ≠ "" ∧ e.rootExists = true
              then [UStep.removeInstallRoot] else [])
            ++ [UStep.refreshCaches]
            ++ (if e.manifestExists = true
              then [UStep.deleteManifest] else []) := by
        simp [uninstallGame, hroot]
      rw [hsteps]
      exact ((((if_singleton_sublist _ _).append
        (if_singleton_sublist _ _)).append
        (if_singleton_sublist _ _)).append
        (List.Sublist.refl _)).append (if_singleton_sublist _ _)
  · intro b1 b2
    by_cases hroot : e.installPath ≠ "" ∧ e.rootExists = true
        ∧ e.removeRootOk = false <;>
      constructor <;> simp [uninstallGame, hroot]
  · intro hroot
    constructor
    · simp [uninstallGame, hroot]
    · simp [uninstallGame, hroot, List.mem_append]
  · intro h1 h2 h3
    refine ⟨by simp [uninstallGame, h1, h2, h3], ?_, ?_⟩ <;>
      by_cases hm : e.menuFile = "" <;> by_cases hme : e.menuExists = true <;>
      by_cases hd : e.desktopFile = "" <;>
      by_cases hde : e.desktopExists = true <;>
      simp [uninstallGame, hm, hme, hd, hde, h1, h2, h3]

/-- A concrete uninstall environment whose install-root removal fails while
both shortcut removals also fail. -/
def rootRemovalFailEnvW : UninstallEnv :=
  { menuFile := "/home/user/.local/share/applications/celeste.desktop"
    menuExists := true
    menuRemoveOk := false
    desktopFile := "/home/user/Desktop/celeste.desktop"
    desktopExists := true
    desktopRemoveOk := false
    installPath := "/opt/game"
    rootExists := true
    removeRootOk := false
    manifestExists := true
    manifestRemoveOk := true }

/-- The same environment with the install-root removal succeeding. -/
def rootRemovalOkEnvW : UninstallEnv :=
  { rootRemovalFailEnvW with removeRootOk := true }

/-- Witness for C8: the fixed order at the concrete failing environment,
the hard-error clause discharged there, and the no-error clause discharged
at the same environment with the root removal succeeding. -/
theorem uninstall_order_and_fatality_witness :
    (uninstallGame rootRemovalFailEnvW).1.Sublist uninstallOrder ∧
    rootRemovalFailEnvW.installPath ≠ "" ∧
    rootRemovalFailEnvW.rootExists = true ∧
    rootRemovalFailEnvW.removeRootOk = false ∧
    ((uninstallGame rootRemovalFailEnvW).2.2 ≠ none ∧
     UStep.refreshCaches ∉ (uninstallGame rootRemovalFailEnvW).1 ∧
     UStep.deleteManifest ∉ (uninstallGame rootRemovalFailEnvW).1) ∧
    ¬(rootRemovalOkEnvW.installPath ≠ "" ∧ rootRemovalOkEnvW.rootExists = true
        ∧ rootRemovalOkEnvW.removeRootOk = false) ∧
    ((uninstallGame rootRemovalOkEnvW).2.2 = none ∧
     UStep.refreshCaches ∈ (uninstallGame rootRemovalOkEnvW).1) :=
  ⟨(uninstall_order_and_fatality rootRemovalFailEnvW).1,
   by decide, rfl, rfl,
   (uninstall_order_and_fatality rootRemovalFailEnvW).2.2.2
     (by decide) rfl rfl,
   by decide,
   (uninstall_order_and_fatality rootRemovalOkEnvW).2.2.1 (by decide)⟩

/-- The install record the installer serializes: InstallInfo in main.go,
eight fields; the timestamp is carried as its serialized textual form. -/
structure InstallInfo where
  gameName : String
  installPath : String
  installDate : String
  desktopFile : String
  menuFile : String
  installerPath : String
  installerDir : String
  uninstallerPath : String
deriving DecidableEq

/-- The install record type the uninstaller parses into: InstallInfo in
uninstaller.go, seven fields, with no uninstaller-path field. -/
structure UninstallerInstallInfo where
  gameName : String
  installPath : String
  installDate : String
  desktopFile : String
  menuFile : String
  installerPath : String
  installerDir : String
deriving DecidableEq

/-- The JSON object json.MarshalIndent produces for an install record in
saveInstallInfo, as its key-value pairs. -/
def marshalInstallInfo (i : InstallInfo) : List (String × String) :=
  [("game_name", i.gameName), ("install_path", i.installPath),
   ("install_date", i.installDate), ("desktop_file", i.desktopFile),
   ("menu_file", i.menuFile), ("installer_path", i.installerPath),
   ("installer_dir", i.installerDir),
   ("uninstaller_path", i.uninstallerPath)]

/-- Go json.Unmarshal field lookup: the value stored at the key, or the
string zero value when the key is absent. -/
def jsonField (kv : List (String × String)) (k : String) : String :=
  (kv.lookup k).getD ""

/-- loadInstallInfo from uninstaller.go applied to a serialized record: it
populates only the seven fields its struct declares and ignores unknown
keys such as uninstaller_path. -/
def loadInstallInfo (kv : List (String × String)) : UninstallerInstallInfo :=
  { gameName := jsonField kv "game_name"
    installPath := jsonField kv "install_path"
    installDate := jsonField kv "install_date"
    desktopFile := jsonField kv "desktop_file"
    menuFile := jsonField kv "menu_file"
    installerPath := jsonField kv "installer_path"
    installerDir := jsonField kv "installer_dir" }

/-- A concrete install record with a nonempty uninstaller path. -/
def recordAW : InstallInfo :=
  { gameName := "Celeste"
    installPath := "/opt/game"
    installDate := "2024-01-01T00:00:00Z"
    desktopFile := ""
    menuFile := ""
    installerPath := "/home/user/dist/installer"
    installerDir := "/home/user/dist"
    uninstallerPath := "/opt/game/uninstaller" }

/-- The same record with the uninstaller path cleared. -/
def recordBW : InstallInfo := { recordAW with uninstallerPath := "" }

/-- C2 counterexample: two records that differ only in the uninstaller
path load back identically through the uninstaller, so the loaded record
cannot agree with the written one on all eight fields: uninstaller_path is
dropped. -/
theorem roundtrip_counterexample :
    loadInstallInfo (marshalInstallInfo recordAW)
      = loadInstallInfo (marshalInstallInfo recordBW) ∧
    recordAW ≠ recordBW ∧
    recordAW.uninstallerPath ≠ recordBW.uninstallerPath := by
  refine ⟨by decide, by decide, by decide⟩

/-- C2 amended: the seven fields declared by the uninstaller's record type
are preserved field for field by a save followed by a load at the slug
path; the uninstaller-path field is written by save but dropped by load
because the uninstaller's struct does not declare it. -/
theorem roundtrip_amended (i : InstallInfo) :
    (loadInstallInfo (marshalInstallInfo i)).gameName = i.gameName ∧
    (loadInstallInfo (marshalInstallInfo i)).installPath = i.installPath ∧
    (loadInstallInfo (marshalInstallInfo i)).installDate = i.installDate ∧
    (loadInstallInfo (marshalInstallInfo i)).desktopFile = i.desktopFile ∧
    (loadInstallInfo (marshalInstallInfo i)).menuFile = i.menuFile ∧
    (loadInstallInfo (marshalInstallInfo i)).installerPath = i.installerPath ∧
    (loadInstallInfo (marshalInstallInfo i)).installerDir = i.installerDir :=
  ⟨rfl, rfl, rfl, rfl, rfl, rfl, rfl⟩

/-- Model of strings.ToLower restricted to ASCII, which covers every
comparison the program makes. -/
def goToLower (s : List Char) : List Char := s.map Char.toLower

/-- Model of strings.ReplaceAll with the single-character pattern used in
main.go: every space becomes a hyphen. -/
def replaceSpaceDash (s : List Char) : List Char :=
  s.map (fun c => if c = ' ' then '-' else c)

/-- The manifest file name saveInstallInfo in main.go derives from the
configured application name: lowercased, spaces replaced by hyphens, with
the install-record suffix appended. -/
def saveInstallInfoFileName (name : List Char) : List Char :=
  replaceSpaceDash (goToLower name) ++ "-install.json".toList

/-- The manifest file name uninstallGame in uninstaller.go recomputes from
the record's application name: lowercased only, with the suffix
appended. -/
def uninstallManifestFileName (name : List Char) : List Char :=
  goToLower name ++ "-install.json".toList

/-- C3: for the application name My Game the installer writes
my-game-install.json while the uninstaller recomputes my game-install.json,
so the deletion step misses the manifest the installer wrote; the two
derivations only agree on names without spaces. -/
theorem manifest_name_mismatch :
    saveInstallInfoFileName "My Game".toList
      = "my-game-install.json".toList ∧
    uninstallManifestFileName "My Game".toList
      = "my game-install.json".toList ∧
    saveInstallInfoFileName "My Game".toList
      ≠ uninstallManifestFileName "My Game".toList := by
  refine ⟨by decide, by decide, by decide⟩

/-- The directory saveInstallInfo in main.go writes the manifest into: the
logs directory under the configured install path. -/
def saveInstallInfoDir (installPath : List Char) : List Char :=
  goJoin installPath "logs".toList

/-- The directory findInstallInfoFiles in uninstaller.go scans: the logs
directory under the running uninstaller executable's directory. -/
def findInstallInfoDir (uninstallerDir : List Char) : List Char :=
  goJoin uninstallerDir "logs".toList

/-- C4 counterexample: with the install path /opt/game and the installer
executable living in /home/user/dist, the manifest is written to
/opt/game/logs, not to the logs directory under the executable's
directory. -/
theorem manifest_dir_counterexample :
    saveInstallInfoDir "/opt/game".toList = "/opt/game/logs".toList ∧
    findInstallInfoDir "/home/user/dist".toList
      = "/home/user/dist/logs".toList ∧
    saveInstallInfoDir "/opt/game".toList
      ≠ findInstallInfoDir "/home/user/dist".toList := by
  refine ⟨by decide, by decide, by decide⟩

/-- C4 amended: save writes the manifest into the logs directory under the
configured install path, while list scans the logs directory under the
uninstaller executable's directory; the two coincide when that directory
is the install path, as holds for the staged uninstaller copied to the
install root. -/
theorem manifest_dir_amended (d p : List Char) (h : d = p) :
    findInstallInfoDir d = saveInstallInfoDir p := by
  rw [h, findInstallInfoDir, saveInstallInfoDir]

/-- Witness for C4 amended at the staged location. -/
theorem manifest_dir_amended_witness :
    "/opt/game".toList = "/opt/game".toList ∧
    findInstallInfoDir "/opt/game".toList
      = saveInstallInfoDir "/opt/game".toList :=
  ⟨rfl, manifest_dir_amended "/opt/game".toList "/opt/game".toList rfl⟩

/-- Helper for the model of Go path/filepath.Ext: walks the reversed path
accumulating the candidate suffix until it meets a dot (extension found), a
separator, or the start of the string (no extension). -/
def extFromRev : List Char → List Char → List Char
  | _, [] => []
  | seen, c :: rest =>
    if c = '/' then []
    else if c = '.' then '.' :: seen
    else extFromRev (c :: seen) rest

/-- Model of Go path/filepath.Ext: the suffix starting at the final dot of
the final separator-delimited element, empty when there is none. -/
def goExt (p : List Char) : List Char := extFromRev [] p.reverse

/-- Model of Go path/filepath.Base: an empty path yields a dot, trailing
separators are removed, an all-separator path yields one separator, and
otherwise the element after the last separator is returned. -/
def goBase (p : List Char) : List Char :=
  if p = [] then ['.']
  else
    let q := (p.reverse.dropWhile (fun c => c = '/')).reverse
    if q = [] then ['/']
    else (q.reverse.takeWhile (fun c => ¬(c = '/'))).reverse

/-- Model of strings.Contains: the second list occurs contiguously inside
the first. -/
def goContains : List Char → List Char → Bool
  | [], sub => sub.isEmpty
  | c :: t, sub => sub.isPrefixOf (c :: t) || goContains t sub

/-- The suffixes of a string reachable by consuming zero or more
non-separator characters from the front, which is what a star may
swallow. -/
def starTails : List Char → List (List Char)
  | [] => [[]]
  | c :: rest => (c :: rest) :: (if c = '/' then [] else starTails rest)

/-- Model of Go path/filepath.Match restricted to patterns made of
literals, stars and question marks, the only forms this program passes: a
star matches any run of non-separator characters, a question mark exactly
one, and other characters themselves. -/
def globMatch : List Char → List Char → Bool
  | [], s => s.isEmpty
  | p :: ps, s =>
    if p = '*' then (starTails s).any (fun t => globMatch ps t)
    else
      match s with
      | [] => false
      | c :: rest => (if p = '?' then !(c == '/') else p == c) && globMatch ps rest

/-- The glob patterns the callers in main.go pass to
makeFilesExecutable. -/
def defaultPatterns : List (List Char) :=
  ["*.sh".toList, "*.bin".toList, "*.x86".toList, "*.x86_64".toList]

/-- The decision makeFilesExecutable in main.go takes for one file: the
lowercased extension is a platform-executable extension or empty, or the
lowercased base name contains run, start, game or the hardcoded substring
celeste, or the base name matches one of the given patterns. -/
def isExecutableFile (patterns : List (List Char)) (path : List Char) :
    Bool :=
  let ext := goToLower (goExt path)
  let extHit := (ext == ".sh".toList) || (ext == ".bin".toList)
      || (ext == ".x86".toList) || (ext == ".x86_64".toList) || ext.isEmpty
  let baseName := goToLower (goBase path)
  let nameHit := goContains baseName "run".toList
      || goContains baseName "start".toList
      || goContains baseName "game".toList
      || goContains baseName "celeste".toList
  let patHit := patterns.any (fun pat => globMatch pat (goBase path))
  extHit || nameHit || patHit

/-- The Permission Classifier as claim C5 words it: identical to the code
except that rule (b) uses the configured application slug in place of the
hardcoded celeste. -/
def claimIsExecutable (slug : List Char) (patterns : List (List Char))
    (path : List Char) : Bool :=
  let ext := goToLower (goExt path)
  let extHit := (ext == ".sh".toList) || (ext == ".bin".toList)
      || (ext == ".x86".toList) || (ext == ".x86_64".toList) || ext.isEmpty
  let baseName := goToLower (goBase path)
  let nameHit := goContains baseName "run".toList
      || goContains baseName "start".toList
      || goContains baseName "game".toList
      || goContains baseName slug
  let patHit := patterns.any (fun pat => globMatch pat (goBase path))
  extHit || nameHit || patHit

/-- C5 counterexample: with the configured slug mario, the file mario.dat
contains the slug so the claim marks it executable, while the code, which
hardcodes celeste, does not. -/
theorem classifier_counterexample :
    claimIsExecutable "mario".toList defaultPatterns "mario.dat".toList
      = true ∧
    isExecutableFile defaultPatterns "mario.dat".toList = false := by
  refine ⟨by decide, by decide⟩

/-- C5 amended: the classifier marks a file executable exactly when one of
the three rules holds, with the fixed substring celeste in rule (b) rather
than the configured slug; and readme.txt is not marked executable under
the patterns the program uses. -/
theorem classifier_amended :
    (∀ patterns path, isExecutableFile patterns path
        = claimIsExecutable "celeste".toList patterns path) ∧
    isExecutableFile defaultPatterns "readme.txt".toList = false :=
  ⟨fun _ _ => rfl, by decide⟩

end QtInstaller
